import Mathlib

set_option maxHeartbeats 1000000

/-
Verification of the cdiff line-diff and patch tool (src/cdiff.cpp).

The development shallowly embeds the three algorithmic parts of the program:

  * the dynamic-programming edit-distance engine with its backtrace
    (function edit_distance of the source, lines 54-125),
  * the patch record parser of the patch subcommand (lines 249-278),
    including the istringstream extraction semantics the source relies on,
  * the patch application loop (lines 280-295): sort by
    (position, action), reverse, then erase or insert per record.

Machine ints are modelled as unbounded Int (patch positions fit easily),
vector erase or insert at an invalid index, which is undefined behaviour
in the source, is modelled as an explicit out-of-bounds error, and the
assert(false) branch of the apply loop is modelled as a distinct error.
-/

namespace Cdiff

/-! ## Action characters, as in the source -/

def IGNORE : Char := '='
def ADD : Char := '+'
def REMOVE : Char := '-'
def SUBST : Char := 'x'
def WILD : Char := '%'

/-- A patch record, struct Move of the source.  The default constructor of
the source sets n to -1 and leaves the line empty. -/
structure Move where
  action : Char
  n : Int
  line : String
deriving DecidableEq, Repr

/-! ## The DP tables

The source fills a (m1+1) x (m2+1) table of distances and one of action
tags, row by row; cell (i+1, j+1) is computed from cells (i, j),
(i, j+1) and (i+1, j).  The functions below compute exactly the cell
values of the filled tables: `distances` mirrors the cost recurrence of
the fill loop (delete checked first, add only on strict improvement),
`actions` the tag each cell ends up with.  Both are defined with plain
recursors so that every cell equation below holds definitionally. -/

def distances (src dst : List String) : Nat → Nat → Nat :=
  Nat.rec (motive := fun _ => Nat → Nat)
    (fun j => j)
    (fun i distI => fun j => Nat.rec (motive := fun _ => Nat)
      (i + 1)
      (fun j' prev =>
        if src.getD i "" = dst.getD j' "" then distI j'
        else (if distI (j' + 1) > prev then prev else distI (j' + 1)) + 1) j)

def actions (src dst : List String) : Nat → Nat → Char
  | 0, 0 => IGNORE
  | 0, _ + 1 => ADD
  | _ + 1, 0 => REMOVE
  | i + 1, j + 1 =>
    if src.getD i "" = dst.getD j "" then IGNORE
    else if distances src dst i (j + 1) > distances src dst (i + 1) j then ADD
    else REMOVE

/-! ## Backtrace

The while loop of the source walks from cell (m1, m2) towards (0, 0),
pushing one Move per ADD or REMOVE tag; the pushed list is reversed at
the end.  `btAux i j` is the list pushed by the loop started at (i, j),
in push order (head pushed first).  On row 0 every tag is ADD and on
column 0 every tag is REMOVE, so those branches are specialised; at an
inner cell the tag is one of IGNORE, ADD, REMOVE by construction, so
the assert(false) branch of the loop has no counterpart here. -/

def btAux (src dst : List String) : Nat → Nat → List Move :=
  Nat.rec (motive := fun _ => Nat → List Move)
    (fun j => Nat.rec (motive := fun _ => List Move)
      []
      (fun j' prev => Move.mk ADD ((j' : Int)) (dst.getD j' "") :: prev) j)
    (fun i btI => fun j => Nat.rec (motive := fun _ => List Move)
      (Move.mk REMOVE ((i : Int)) (src.getD i "") :: btI 0)
      (fun j' prev =>
        if actions src dst (i + 1) (j' + 1) = ADD then
          Move.mk ADD ((j' : Int)) (dst.getD j' "") :: prev
        else if actions src dst (i + 1) (j' + 1) = REMOVE then
          Move.mk REMOVE ((i : Int)) (src.getD i "") :: btI (j' + 1)
        else btI j') j)

/-- The diff engine: edit_distance of the source.  Builds the DP tables,
backtraces from (|src|, |dst|) and reverses the pushed list. -/
def edit_distance (src dst : List String) : List Move :=
  (btAux src dst src.length dst.length).reverse

/-- Specification-level reference function: the classic
insertion/deletion-only Levenshtein distance between two line
sequences, as the specification describes it (equal heads cost nothing,
otherwise one plus the better of a deletion and an insertion; no
substitution). -/
def LevenshteinLineDistance : List String → List String → Nat
  | [], d => d.length
  | a :: s, [] => (a :: s).length
  | a :: s, b :: d =>
    if a = b then LevenshteinLineDistance s d
    else 1 + min (LevenshteinLineDistance s (b :: d))
                 (LevenshteinLineDistance (a :: s) d)
termination_by s d => s.length + d.length
decreasing_by all_goals (simp [List.length_cons]; try omega)

/-! ## Patch application (PatchSubcommand::run, lines 280-295) -/

/-- Errors of the modelled apply loop: `oob` stands for a vector erase or
insert at an invalid index (undefined behaviour in the source), and
`badAction` for the assert(false) unreachable branch. -/
inductive ApplyErr where
  | oob
  | badAction
deriving DecidableEq, Repr

/-- vector insert before index k (valid for k at most the length). -/
def vecInsert (a : String) : Nat → List String → List String
  | 0, ls => a :: ls
  | _ + 1, [] => [a]
  | k + 1, x :: ls => x :: vecInsert a k ls

/-- vector erase at index k (valid for k below the length). -/
def vecErase : Nat → List String → List String
  | _, [] => []
  | 0, _ :: ls => ls
  | k + 1, x :: ls => x :: vecErase k ls

/-- One iteration of the apply loop of the source: erase for REMOVE,
insert for ADD, assert(false) otherwise; the index validity that the
source takes on faith is modelled as an explicit check. -/
def applyMove (ls : List String) (m : Move) : Except ApplyErr (List String) :=
  if m.action = REMOVE then
    if 0 ≤ m.n ∧ m.n < (ls.length : Int) then .ok (vecErase m.n.toNat ls)
    else .error .oob
  else if m.action = ADD then
    if 0 ≤ m.n ∧ m.n ≤ (ls.length : Int) then .ok (vecInsert m.line m.n.toNat ls)
    else .error .oob
  else .error .badAction

def applyMoves : List String → List Move → Except ApplyErr (List String)
  | ls, [] => .ok ls
  | ls, m :: ms =>
    match applyMove ls m with
    | .ok ls2 => applyMoves ls2 ms
    | .error e => .error e

/-- The sort comparator of the source: positions first, the action
character on ties.  `moveLE m x` holds when m may stand before x. -/
def moveLE (m x : Move) : Bool :=
  decide (m.n < x.n) || (decide (m.n = x.n) && decide (m.action ≤ x.action))

def insertSorted (m : Move) : List Move → List Move
  | [] => [m]
  | x :: xs => if moveLE m x then m :: x :: xs else x :: insertSorted m xs

/-- std::sort with the comparator of the source (stable refinement; the
comparator keys of any patch the claims touch are pairwise distinct, so
the result agrees with any valid std::sort run). -/
def sortMoves (l : List Move) : List Move := l.foldr insertSorted []

/-- The apply phase of the patch subcommand: sort by (position, action),
reverse, then apply record by record. -/
def applyPatch (ls : List String) (patch : List Move) : Except ApplyErr (List String) :=
  applyMoves ls (sortMoves patch).reverse

/-! ## Patch record parsing (PatchSubcommand::run, lines 252-274)

The source parses each non-empty line with an istringstream: a char
extraction (skips whitespace), an int extraction (skips whitespace,
optional sign, then digits; on failure the int is set to 0 and the
stream fails), then getline for the rest and removal of one leading
space.  A record is reported malformed exactly when its action char is
neither ADD nor REMOVE and its parsed position differs from -1. -/

def isWs (c : Char) : Bool :=
  c.toNat = 32 || c.toNat = 9 || c.toNat = 10 || c.toNat = 11 ||
  c.toNat = 12 || c.toNat = 13

def isDigitC (c : Char) : Bool := 48 ≤ c.toNat && c.toNat ≤ 57

def digitsVal (ds : List Char) : Nat :=
  ds.foldl (fun a c => a * 10 + (c.toNat - 48)) 0

/-- Digit run extraction of operator>>(int): value, failbit, rest. -/
def extractDigits (sgn : Int) (r : List Char) : Int × Bool × List Char :=
  let ds := r.takeWhile isDigitC
  if ds.isEmpty then (0, true, r.dropWhile isDigitC)
  else (sgn * (digitsVal ds : Int), false, r.dropWhile isDigitC)

/-- int extraction from a stream positioned at cs: skip whitespace, read
an optional sign, then a digit run. -/
def extractInt (cs : List Char) : Int × Bool × List Char :=
  match cs.dropWhile isWs with
  | [] => extractDigits 1 []
  | c :: r =>
    if c = '-' then extractDigits (-1) r
    else if c = '+' then extractDigits 1 r
    else extractDigits 1 (c :: r)

/-- Placeholder for the indeterminate action char the source leaves in a
record when char extraction fails (a whitespace-only line); no claim
depends on it. -/
def NULLC : Char := Char.ofNat 0

inductive LineResult where
  | blank
  | err
  | push (m : Move)
deriving DecidableEq, Repr

/-- Processing of one patch-file line, mirroring lines 253-273 of the
source: empty lines are skipped; a record is reported malformed exactly
when its action char is neither ADD nor REMOVE and its parsed position
differs from -1 (the -1 comes from the default constructor of Move);
otherwise the rest of the line, minus one leading space, is the content
and the record is pushed. -/
def processTok : List Char → LineResult
  | [] => .push (Move.mk NULLC (-1) "")
  | a :: cs2 =>
    let (n, failed, rest) := extractInt cs2
    if a ≠ ADD ∧ a ≠ REMOVE ∧ n ≠ -1 then .err
    else
      let content := if failed then [] else rest
      let content2 := if content.head? = some ' ' then content.tail else content
      .push (Move.mk a n (String.mk content2))

def processChars (cs : List Char) : LineResult := processTok (cs.dropWhile isWs)

def processLine (line : String) : LineResult :=
  if line.length = 0 then .blank else processChars line.data

/-- The scan over all patch-file lines: pushed records in order, and the
1-based line numbers of the malformed records. -/
def parsePatchAux : List String → Nat → List Move × List Nat
  | [], _ => ([], [])
  | l :: ls, row =>
    let (ms, es) := parsePatchAux ls (row + 1)
    match processLine l with
    | .blank => (ms, es)
    | .err => (ms, (row + 1) :: es)
    | .push m => (m :: ms, es)

def parsePatch (ls : List String) : List Move × List Nat := parsePatchAux ls 0

/-- Outcome of the patch subcommand on in-memory file contents: refused
with the reported line numbers when any record was malformed, otherwise
the result of the apply phase. -/
inductive PatchOutcome where
  | refused (errRows : List Nat)
  | applied (result : Except ApplyErr (List String))
deriving Repr

def patchRun (file patchLines : List String) : PatchOutcome :=
  let (p, errs) := parsePatch patchLines
  if errs.isEmpty then .applied (applyPatch file p) else .refused errs

/-! ## Serialization (DiffSubcommand::run, lines 209-218) -/

def natChars (n : Nat) : List Char :=
  if n < 10 then [Nat.digitChar n]
  else natChars (n / 10) ++ [Nat.digitChar (n % 10)]
termination_by n
decreasing_by exact Nat.div_lt_self (by omega) (by omega)

/-- Decimal rendering of an int, the std::to_string of the source. -/
def intChars (i : Int) : List Char :=
  if i < 0 then '-' :: natChars i.natAbs else natChars i.toNat

/-- One output record of the diff subcommand: action char, space,
decimal position, space, the line verbatim. -/
def serializeMove (m : Move) : String :=
  String.mk (m.action :: ' ' :: (intChars m.n ++ ' ' :: m.line.data))

def serializePatch (p : List Move) : List String := p.map serializeMove

def isAdd (m : Move) : Bool := m.action == ADD

def isRemove (m : Move) : Bool := m.action == REMOVE

/-! ## Cell equations of the DP tables and of the backtrace -/

theorem distances_zero (src dst : List String) (j : Nat) :
    distances src dst 0 j = j := rfl

theorem distances_succ_zero (src dst : List String) (i : Nat) :
    distances src dst (i + 1) 0 = i + 1 := rfl

theorem distances_zero_right (src dst : List String) (i : Nat) :
    distances src dst i 0 = i := by
  cases i with
  | zero => rfl
  | succ i => rfl

theorem distances_succ_succ (src dst : List String) (i j : Nat) :
    distances src dst (i + 1) (j + 1) =
      if src.getD i "" = dst.getD j "" then distances src dst i j
      else (if distances src dst i (j + 1) > distances src dst (i + 1) j
            then distances src dst (i + 1) j
            else distances src dst i (j + 1)) + 1 := rfl

theorem actions_zero_succ (src dst : List String) (j : Nat) :
    actions src dst 0 (j + 1) = ADD := rfl

theorem actions_succ_zero (src dst : List String) (i : Nat) :
    actions src dst (i + 1) 0 = REMOVE := rfl

theorem actions_succ_succ (src dst : List String) (i j : Nat) :
    actions src dst (i + 1) (j + 1) =
      if src.getD i "" = dst.getD j "" then IGNORE
      else if distances src dst i (j + 1) > distances src dst (i + 1) j then ADD
      else REMOVE := rfl

theorem btAux_zero_zero (src dst : List String) : btAux src dst 0 0 = [] := rfl

theorem btAux_zero_succ (src dst : List String) (j : Nat) :
    btAux src dst 0 (j + 1) =
      Move.mk ADD ((j : Int)) (dst.getD j "") :: btAux src dst 0 j := rfl

theorem btAux_succ_zero (src dst : List String) (i : Nat) :
    btAux src dst (i + 1) 0 =
      Move.mk REMOVE ((i : Int)) (src.getD i "") :: btAux src dst i 0 := rfl

theorem btAux_succ_succ (src dst : List String) (i j : Nat) :
    btAux src dst (i + 1) (j + 1) =
      if actions src dst (i + 1) (j + 1) = ADD then
        Move.mk ADD ((j : Int)) (dst.getD j "") :: btAux src dst (i + 1) j
      else if actions src dst (i + 1) (j + 1) = REMOVE then
        Move.mk REMOVE ((i : Int)) (src.getD i "") :: btAux src dst i (j + 1)
      else btAux src dst i j := rfl

/-! ## Shape of the emitted patch -/

/-- Every move the backtrace started at (i, j) pushes is an insert or a
delete, carries a non-negative position, and its position is below j
for inserts and below i for deletes. -/
theorem btAux_shape (src dst : List String) :
    ∀ i j, ∀ m ∈ btAux src dst i j,
      (m.action = ADD ∨ m.action = REMOVE) ∧ 0 ≤ m.n ∧
      (m.action = ADD → m.n < (j : Int)) ∧
      (m.action = REMOVE → m.n < (i : Int)) := by
  intro i
  induction i with
  | zero =>
    intro j
    induction j with
    | zero => intro m hm; rw [btAux_zero_zero] at hm; cases hm
    | succ j ihj =>
      intro m hm
      rw [btAux_zero_succ] at hm
      rcases List.mem_cons.mp hm with h | h
      · subst h
        refine ⟨Or.inl rfl, ?_, ?_, ?_⟩
        · show (0 : Int) ≤ (j : Int)
          omega
        · intro _
          show (j : Int) < ((j + 1 : Nat) : Int)
          omega
        · intro hr
          exact absurd (show ADD = REMOVE from hr) (by decide)
      · obtain ⟨h1, h2, h3, h4⟩ := ihj m h
        refine ⟨h1, h2, fun ha => ?_, h4⟩
        have := h3 ha
        omega
  | succ i ihi =>
    intro j
    induction j with
    | zero =>
      intro m hm
      rw [btAux_succ_zero] at hm
      rcases List.mem_cons.mp hm with h | h
      · subst h
        refine ⟨Or.inr rfl, ?_, ?_, ?_⟩
        · show (0 : Int) ≤ (i : Int)
          omega
        · intro ha
          exact absurd (show REMOVE = ADD from ha) (by decide)
        · intro _
          show (i : Int) < ((i + 1 : Nat) : Int)
          omega
      · obtain ⟨h1, h2, h3, h4⟩ := ihi 0 m h
        refine ⟨h1, h2, h3, fun hr => ?_⟩
        have := h4 hr
        omega
    | succ j ihj =>
      intro m hm
      rw [btAux_succ_succ] at hm
      by_cases ha : actions src dst (i + 1) (j + 1) = ADD
      · rw [if_pos ha] at hm
        rcases List.mem_cons.mp hm with h | h
        · subst h
          refine ⟨Or.inl rfl, ?_, ?_, ?_⟩
          · show (0 : Int) ≤ (j : Int)
            omega
          · intro _
            show (j : Int) < ((j + 1 : Nat) : Int)
            omega
          · intro hr
            exact absurd (show ADD = REMOVE from hr) (by decide)
        · obtain ⟨h1, h2, h3, h4⟩ := ihj m h
          refine ⟨h1, h2, fun hadd => ?_, h4⟩
          have := h3 hadd
          omega
      · rw [if_neg ha] at hm
        by_cases hr : actions src dst (i + 1) (j + 1) = REMOVE
        · rw [if_pos hr] at hm
          rcases List.mem_cons.mp hm with h | h
          · subst h
            refine ⟨Or.inr rfl, ?_, ?_, ?_⟩
            · show (0 : Int) ≤ (i : Int)
              omega
            · intro hadd
              exact absurd (show REMOVE = ADD from hadd) (by decide)
            · intro _
              show (i : Int) < ((i + 1 : Nat) : Int)
              omega
          · obtain ⟨h1, h2, h3, h4⟩ := ihi (j + 1) m h
            refine ⟨h1, h2, h3, fun hrem => ?_⟩
            have := h4 hrem
            omega
        · rw [if_neg hr] at hm
          obtain ⟨h1, h2, h3, h4⟩ := ihi j m hm
          refine ⟨h1, h2, fun hadd => ?_, fun hrem => ?_⟩
          · have := h3 hadd
            omega
          · have := h4 hrem
            omega

/-- The number of moves the backtrace pushes equals the table value of
its start cell. -/
theorem btAux_length (src dst : List String) :
    ∀ i j, (btAux src dst i j).length = distances src dst i j := by
  intro i
  induction i with
  | zero =>
    intro j
    induction j with
    | zero => rfl
    | succ j ihj =>
      rw [btAux_zero_succ, distances_zero]
      simp only [List.length_cons, ihj, distances_zero]
  | succ i ihi =>
    intro j
    induction j with
    | zero =>
      rw [btAux_succ_zero, distances_succ_zero]
      simp only [List.length_cons, ihi 0, distances_zero_right]
    | succ j ihj =>
      rw [btAux_succ_succ, distances_succ_succ]
      by_cases heq : src.getD i "" = dst.getD j ""
      · have ha : actions src dst (i + 1) (j + 1) = IGNORE := by
          rw [actions_succ_succ, if_pos heq]
        rw [ha, if_neg (by decide), if_neg (by decide), if_pos heq]
        exact ihi j
      · have ha : actions src dst (i + 1) (j + 1) =
            if distances src dst i (j + 1) > distances src dst (i + 1) j
            then ADD else REMOVE := by
          rw [actions_succ_succ, if_neg heq]
        rw [ha, if_neg heq]
        by_cases hgt : distances src dst i (j + 1) > distances src dst (i + 1) j
        · rw [if_pos hgt, if_pos hgt]
          rw [if_pos rfl]
          simp only [List.length_cons, ihj]
        · rw [if_neg hgt, if_neg hgt]
          rw [if_neg (by decide), if_pos rfl]
          simp only [List.length_cons, ihi (j + 1)]

/-! ## The empty-source, empty-destination and identity patches -/

theorem btAux_row_zero (src dst : List String) :
    ∀ j, btAux src dst 0 j =
      ((List.range j).map (fun (k : Nat) => Move.mk ADD (k : Int) (dst.getD k ""))).reverse := by
  intro j
  induction j with
  | zero => rfl
  | succ j ihj =>
    rw [btAux_zero_succ, ihj, List.range_succ]
    simp

theorem btAux_col_zero (src dst : List String) :
    ∀ i, btAux src dst i 0 =
      ((List.range i).map (fun (k : Nat) => Move.mk REMOVE (k : Int) (src.getD k ""))).reverse := by
  intro i
  induction i with
  | zero => rfl
  | succ i ihi =>
    rw [btAux_succ_zero, ihi, List.range_succ]
    simp

theorem btAux_diag (S : List String) : ∀ i, btAux S S i i = [] := by
  intro i
  induction i with
  | zero => rfl
  | succ i ihi =>
    rw [btAux_succ_succ]
    have ha : actions S S (i + 1) (i + 1) = IGNORE := by
      rw [actions_succ_succ, if_pos rfl]
    rw [ha, if_neg (by decide), if_neg (by decide)]
    exact ihi

/-- C7.  Diffing from the empty sequence yields exactly the |D| inserts
at positions 0 through |D|-1 carrying the destination lines, diffing to
the empty sequence yields exactly the |S| deletes at positions 0
through |S|-1, and diffing a sequence against itself yields the empty
patch. -/
theorem c7_empty_and_identity (S D : List String) :
    edit_distance [] D =
      (List.range D.length).map (fun (k : Nat) => Move.mk ADD (k : Int) (D.getD k "")) ∧
    edit_distance S [] =
      (List.range S.length).map (fun (k : Nat) => Move.mk REMOVE (k : Int) (S.getD k "")) ∧
    edit_distance S S = [] := by
  refine ⟨?_, ?_, ?_⟩
  · show (btAux [] D 0 D.length).reverse = _
    rw [btAux_row_zero, List.reverse_reverse]
  · show (btAux S [] S.length 0).reverse = _
    rw [btAux_col_zero, List.reverse_reverse]
  · show (btAux S S S.length S.length).reverse = _
    rw [btAux_diag]
    rfl

/-- C7 witness: the three equations at a concrete instance. -/
theorem c7_empty_and_identity_witness :
    edit_distance [] ["a", "b"] =
      (List.range 2).map (fun (k : Nat) => Move.mk ADD (k : Int) (["a", "b"].getD k "")) ∧
    edit_distance ["a", "b"] [] =
      (List.range 2).map (fun (k : Nat) => Move.mk REMOVE (k : Int) (["a", "b"].getD k "")) ∧
    edit_distance ["a", "b"] ["a", "b"] = [] :=
  c7_empty_and_identity ["a", "b"] ["a", "b"]

/-! ## The tie-break of the fill loop -/

/-- C6.  At an inner cell whose source and destination lines differ, the
delete direction wins ties: if the delete cost equals the insert cost
the cell is tagged REMOVE, and the cell is tagged ADD exactly when the
insert cost is strictly below the delete cost.  Cell (i+1, j+1) has
delete cost distances i (j+1) and insert cost distances (i+1) j, as in
the source where cell (i, j) reads distances[i-1][j] and
distances[i][j-1]. -/
theorem c6_tie_break (src dst : List String) (i j : Nat)
    (h : src.getD i "" ≠ dst.getD j "") :
    (distances src dst i (j + 1) = distances src dst (i + 1) j →
      actions src dst (i + 1) (j + 1) = REMOVE) ∧
    (actions src dst (i + 1) (j + 1) = ADD ↔
      distances src dst (i + 1) j < distances src dst i (j + 1)) := by
  rw [actions_succ_succ, if_neg h]
  constructor
  · intro he
    have hng : ¬ distances src dst i (j + 1) > distances src dst (i + 1) j := by
      omega
    rw [if_neg hng]
  · by_cases hgt : distances src dst i (j + 1) > distances src dst (i + 1) j
    · rw [if_pos hgt]
      exact ⟨fun _ => hgt, fun _ => rfl⟩
    · rw [if_neg hgt]
      exact ⟨fun hr => absurd hr (by decide), fun hlt => absurd hlt hgt⟩

/-- C6 witness: for source ["a"] and destination ["b"] the two costs at
cell (1, 1) are both 1 and the cell is tagged REMOVE. -/
theorem c6_tie_break_witness :
    distances ["a"] ["b"] 0 1 = distances ["a"] ["b"] 1 0 ∧
    actions ["a"] ["b"] 1 1 = REMOVE :=
  ⟨by decide, (c6_tie_break ["a"] ["b"] 0 0 (by decide)).1 (by decide)⟩

/-! ## Minimality: the table agrees with the reference distance -/

theorem lev_nil (d : List String) : LevenshteinLineDistance [] d = d.length := by
  simp [LevenshteinLineDistance]

theorem lev_nil_right (s : List String) : LevenshteinLineDistance s [] = s.length := by
  cases s <;> simp [LevenshteinLineDistance]

theorem lev_cons_cons (a b : String) (s d : List String) :
    LevenshteinLineDistance (a :: s) (b :: d) =
      if a = b then LevenshteinLineDistance s d
      else 1 + min (LevenshteinLineDistance s (b :: d))
                   (LevenshteinLineDistance (a :: s) d) := by
  simp only [LevenshteinLineDistance]

/-- The reference distance satisfies the same recurrence at the right
end of both sequences; this is what links it to the table of the
source, which compares the last lines of the prefixes. -/
theorem lev_snoc :
    ∀ (s d : List String) (a b : String),
      LevenshteinLineDistance (s ++ [a]) (d ++ [b]) =
        if a = b then LevenshteinLineDistance s d
        else 1 + min (LevenshteinLineDistance s (d ++ [b]))
                     (LevenshteinLineDistance (s ++ [a]) d) := by
  intro s
  induction s with
  | nil =>
    intro d
    induction d with
    | nil =>
      intro a b
      simp only [List.nil_append]
      rw [lev_cons_cons]
    | cons e d ihd =>
      intro a b
      simp only [List.nil_append, List.cons_append] at *
      rw [lev_cons_cons, ihd a b]
      rcases eq_or_ne a b with hab | hab
      · subst hab
        rcases eq_or_ne a e with hae | hae
        · subst hae
          simp [lev_nil, lev_nil_right, lev_cons_cons, List.length_append]
        · simp [hae, lev_nil, lev_nil_right, lev_cons_cons, List.length_append]
          omega
      · rcases eq_or_ne a e with hae | hae
        · subst hae
          simp [hab, lev_nil, lev_nil_right, lev_cons_cons, List.length_append]
          omega
        · simp [hab, hae, lev_nil, lev_nil_right, lev_cons_cons, List.length_append]
  | cons c s ihs =>
    intro d
    induction d with
    | nil =>
      intro a b
      simp only [List.nil_append, List.cons_append] at *
      have h1 := ihs [] a b
      simp only [List.nil_append] at h1
      rw [lev_cons_cons, h1]
      rcases eq_or_ne a b with hab | hab
      · subst hab
        rcases eq_or_ne c a with hca | hca
        · subst hca
          simp [lev_nil, lev_nil_right, lev_cons_cons, List.length_append]
        · simp [hca, lev_nil, lev_nil_right, lev_cons_cons, List.length_append]
          omega
      · rcases eq_or_ne c b with hcb | hcb
        · subst hcb
          simp [hab, lev_nil, lev_nil_right, lev_cons_cons, List.length_append]
          omega
        · simp [hab, hcb, lev_nil, lev_nil_right, lev_cons_cons, List.length_append]
    | cons e d ihd =>
      intro a b
      simp only [List.cons_append] at *
      have h1 := ihs d a b
      have h2 := ihs (e :: d) a b
      have h3 := ihd a b
      simp only [List.cons_append] at h1 h2 h3
      rw [lev_cons_cons, lev_cons_cons, lev_cons_cons, lev_cons_cons, h1, h2, h3]
      rcases eq_or_ne a b with hab | hab
      · subst hab
        rcases eq_or_ne c e with hce | hce
        · subst hce
          simp
        · simp [hce]
      · rcases eq_or_ne c e with hce | hce
        · subst hce
          simp [hab]
        · simp [hab, hce]
          omega

/-- Appending the i-th element to the prefix of length i. -/
theorem take_succ_getD {α : Type} :
    ∀ (l : List α) (i : Nat) (d : α), i < l.length →
      l.take (i + 1) = l.take i ++ [l.getD i d] := by
  intro l
  induction l with
  | nil => intro i d h; cases h
  | cons x ls ih =>
    intro i d h
    cases i with
    | zero => rfl
    | succ i =>
      have := ih i d (by simpa using h)
      simp only [List.take_succ_cons, List.getD_cons_succ, this, List.cons_append]

/-- Each cell of the distance table holds the reference distance of the
corresponding prefixes. -/
theorem distances_eq_lev (src dst : List String) :
    ∀ i j, i ≤ src.length → j ≤ dst.length →
      distances src dst i j =
        LevenshteinLineDistance (src.take i) (dst.take j) := by
  intro i
  induction i with
  | zero =>
    intro j hi hj
    rw [distances_zero, List.take_zero, lev_nil, List.length_take]
    omega
  | succ i ihi =>
    intro j
    induction j with
    | zero =>
      intro hi hj
      rw [distances_succ_zero, List.take_zero, lev_nil_right, List.length_take]
      omega
    | succ j ihj =>
      intro hi hj
      have hi2 : i < src.length := by omega
      have hj2 : j < dst.length := by omega
      have hsrc := take_succ_getD src i "" hi2
      have hdst := take_succ_getD dst j "" hj2
      rw [distances_succ_succ, hsrc, hdst, lev_snoc]
      by_cases heq : src.getD i "" = dst.getD j ""
      · rw [if_pos heq, if_pos heq]
        exact ihi j (by omega) (by omega)
      · rw [if_neg heq, if_neg heq, ← hsrc, ← hdst,
          ← ihi (j + 1) (by omega) (by omega), ← ihj (by omega) (by omega)]
        by_cases hgt : distances src dst i (j + 1) > distances src dst (i + 1) j
        · rw [if_pos hgt]
          omega
        · rw [if_neg hgt]
          omega

/-- C5.  The emitted patch has exactly the classic insertion/deletion
Levenshtein distance many operations, and every operation is an insert
or a delete; no substitute operation exists. -/
theorem c5_minimality (S D : List String) :
    (edit_distance S D).length = LevenshteinLineDistance S D ∧
    (edit_distance S D).all (fun m => m.action == ADD || m.action == REMOVE) = true := by
  constructor
  · show (btAux S D S.length D.length).reverse.length = _
    rw [List.length_reverse, btAux_length,
      distances_eq_lev S D _ _ le_rfl le_rfl, List.take_length, List.take_length]
  · rw [List.all_eq_true]
    intro m hm
    have hm2 : m ∈ btAux S D S.length D.length := List.mem_reverse.mp hm
    obtain ⟨h1, -, -, -⟩ := btAux_shape S D S.length D.length m hm2
    rcases h1 with h | h <;> rw [h] <;> decide

/-- C5 witness: the two parts at a concrete instance. -/
theorem c5_minimality_witness :
    (edit_distance ["a", "b"] ["b", "c"]).length =
      LevenshteinLineDistance ["a", "b"] ["b", "c"] ∧
    (edit_distance ["a", "b"] ["b", "c"]).all
      (fun m => m.action == ADD || m.action == REMOVE) = true :=
  c5_minimality ["a", "b"] ["b", "c"]

/-! ## Ordering of the emitted patch -/

theorem isAdd_mk_add (n : Int) (l : String) : isAdd (Move.mk ADD n l) = true := rfl

theorem isAdd_mk_remove (n : Int) (l : String) : isAdd (Move.mk REMOVE n l) = false := rfl

theorem isRemove_mk_add (n : Int) (l : String) : isRemove (Move.mk ADD n l) = false := rfl

theorem isRemove_mk_remove (n : Int) (l : String) : isRemove (Move.mk REMOVE n l) = true := rfl

/-- In push order, the inserts of the backtrace carry strictly
decreasing positions. -/
theorem btAux_adds_pairwise (src dst : List String) :
    ∀ i j, ((btAux src dst i j).filter isAdd).Pairwise (fun a b => b.n < a.n) := by
  intro i
  induction i with
  | zero =>
    intro j
    induction j with
    | zero => rw [btAux_zero_zero]; exact List.Pairwise.nil
    | succ j ihj =>
      rw [btAux_zero_succ, List.filter_cons_of_pos (isAdd_mk_add _ _)]
      refine List.Pairwise.cons ?_ ihj
      intro b hb
      have hb1 := List.mem_of_mem_filter hb
      have hb2 : b.action = ADD := by
        have := List.of_mem_filter hb
        simpa [isAdd] using this
      obtain ⟨-, -, h3, -⟩ := btAux_shape src dst 0 j b hb1
      exact h3 hb2
  | succ i ihi =>
    intro j
    induction j with
    | zero =>
      rw [btAux_succ_zero, List.filter_cons_of_neg (by rw [isAdd_mk_remove]; exact fun h => nomatch h)]
      exact ihi 0
    | succ j ihj =>
      rw [btAux_succ_succ]
      by_cases ha : actions src dst (i + 1) (j + 1) = ADD
      · rw [if_pos ha, List.filter_cons_of_pos (isAdd_mk_add _ _)]
        refine List.Pairwise.cons ?_ ihj
        intro b hb
        have hb1 := List.mem_of_mem_filter hb
        have hb2 : b.action = ADD := by
          have := List.of_mem_filter hb
          simpa [isAdd] using this
        obtain ⟨-, -, h3, -⟩ := btAux_shape src dst (i + 1) j b hb1
        exact h3 hb2
      · rw [if_neg ha]
        by_cases hr : actions src dst (i + 1) (j + 1) = REMOVE
        · rw [if_pos hr, List.filter_cons_of_neg (by rw [isAdd_mk_remove]; exact fun h => nomatch h)]
          exact ihi (j + 1)
        · rw [if_neg hr]
          exact ihi j

/-- In push order, the deletes of the backtrace carry strictly
decreasing positions. -/
theorem btAux_removes_pairwise (src dst : List String) :
    ∀ i j, ((btAux src dst i j).filter isRemove).Pairwise (fun a b => b.n < a.n) := by
  intro i
  induction i with
  | zero =>
    intro j
    induction j with
    | zero => rw [btAux_zero_zero]; exact List.Pairwise.nil
    | succ j ihj =>
      rw [btAux_zero_succ, List.filter_cons_of_neg (by rw [isRemove_mk_add]; exact fun h => nomatch h)]
      exact ihj
  | succ i ihi =>
    intro j
    induction j with
    | zero =>
      rw [btAux_succ_zero, List.filter_cons_of_pos (isRemove_mk_remove _ _)]
      refine List.Pairwise.cons ?_ (ihi 0)
      intro b hb
      have hb1 := List.mem_of_mem_filter hb
      have hb2 : b.action = REMOVE := by
        have := List.of_mem_filter hb
        simpa [isRemove] using this
      obtain ⟨-, -, -, h4⟩ := btAux_shape src dst i 0 b hb1
      exact h4 hb2
    | succ j ihj =>
      rw [btAux_succ_succ]
      by_cases ha : actions src dst (i + 1) (j + 1) = ADD
      · rw [if_pos ha, List.filter_cons_of_neg (by rw [isRemove_mk_add]; exact fun h => nomatch h)]
        exact ihj
      · rw [if_neg ha]
        by_cases hr : actions src dst (i + 1) (j + 1) = REMOVE
        · rw [if_pos hr, List.filter_cons_of_pos (isRemove_mk_remove _ _)]
          refine List.Pairwise.cons ?_ (ihi (j + 1))
          intro b hb
          have hb1 := List.mem_of_mem_filter hb
          have hb2 : b.action = REMOVE := by
            have := List.of_mem_filter hb
            simpa [isRemove] using this
          obtain ⟨-, -, -, h4⟩ := btAux_shape src dst i (j + 1) b hb1
          exact h4 hb2
        · rw [if_neg hr]
          exact ihi j

/-- Filtering commutes with list reversal. -/
theorem filter_reverse_eq {A : Type} (p : A → Bool) :
    ∀ l : List A, (l.reverse).filter p = (l.filter p).reverse := by
  intro l
  induction l with
  | nil => rfl
  | cons a l ih =>
    rw [List.reverse_cons, List.filter_append, ih]
    by_cases h : p a <;> simp [List.filter_cons, h]

/-- C9, amended.  Within the emitted patch the insert positions are
strictly increasing among the inserts and the delete positions strictly
increasing among the deletes; consecutive operations of different kinds
need not be ordered, as the counterexample shows. -/
theorem c9_amended (S D : List String) :
    ((edit_distance S D).filter isAdd).Pairwise (fun a b => a.n < b.n) ∧
    ((edit_distance S D).filter isRemove).Pairwise (fun a b => a.n < b.n) := by
  constructor
  · have h := btAux_adds_pairwise S D S.length D.length
    show ((btAux S D S.length D.length).reverse.filter isAdd).Pairwise _
    rw [filter_reverse_eq, List.pairwise_reverse]
    exact h
  · have h := btAux_removes_pairwise S D S.length D.length
    show ((btAux S D S.length D.length).reverse.filter isRemove).Pairwise _
    rw [filter_reverse_eq, List.pairwise_reverse]
    exact h

/-- C9, amended, witness at a concrete instance. -/
theorem c9_amended_witness :
    ((edit_distance ["x", "y", "z", "a"] ["a", "p"]).filter isAdd).Pairwise
      (fun a b => a.n < b.n) ∧
    ((edit_distance ["x", "y", "z", "a"] ["a", "p"]).filter isRemove).Pairwise
      (fun a b => a.n < b.n) :=
  c9_amended ["x", "y", "z", "a"] ["a", "p"]

/-! ## Serialization round trip -/

theorem digitChar_digit {k : Nat} (h : k < 10) : isDigitC (Nat.digitChar k) = true := by
  interval_cases k <;> decide

theorem digitChar_val {k : Nat} (h : k < 10) : (Nat.digitChar k).toNat - 48 = k := by
  interval_cases k <;> decide

theorem natChars_props (n : Nat) :
    natChars n ≠ [] ∧ ∀ c ∈ natChars n, isDigitC c = true := by
  induction n using Nat.strong_induction_on with
  | _ n ih =>
    rw [natChars]
    by_cases h : n < 10
    · rw [if_pos h]
      refine ⟨by simp, ?_⟩
      intro c hc
      rw [List.mem_singleton] at hc
      subst hc
      exact digitChar_digit h
    · rw [if_neg h]
      obtain ⟨h1, h2⟩ := ih (n / 10) (Nat.div_lt_self (by omega) (by omega))
      refine ⟨by simp [h1], ?_⟩
      intro c hc
      rcases List.mem_append.mp hc with hc | hc
      · exact h2 c hc
      · rw [List.mem_singleton] at hc
        subst hc
        exact digitChar_digit (Nat.mod_lt _ (by omega))

theorem digitsVal_aux (n : Nat) :
    ∀ acc : Nat,
      (natChars n).foldl (fun a c => a * 10 + (c.toNat - 48)) acc =
        acc * 10 ^ (natChars n).length + n := by
  induction n using Nat.strong_induction_on with
  | _ n ih =>
    intro acc
    rw [natChars]
    by_cases h : n < 10
    · rw [if_pos h]
      simp only [List.foldl_cons, List.foldl_nil, List.length_singleton, pow_one]
      rw [digitChar_val h]
    · rw [if_neg h]
      rw [List.foldl_append, ih (n / 10) (Nat.div_lt_self (by omega) (by omega)) acc]
      simp only [List.foldl_cons, List.foldl_nil, List.length_append,
        List.length_singleton]
      rw [digitChar_val (Nat.mod_lt _ (by omega)), pow_succ, ← mul_assoc]
      have hdm := Nat.div_add_mod n 10
      generalize acc * 10 ^ (natChars (n / 10)).length = t
      omega

theorem digitsVal_natChars (n : Nat) : digitsVal (natChars n) = n := by
  have h := digitsVal_aux n 0
  simpa [digitsVal] using h

theorem digit_not_ws {c : Char} (h : isDigitC c = true) : isWs c = false := by
  simp only [isDigitC, Bool.and_eq_true, decide_eq_true_eq] at h
  simp only [isWs, Bool.or_eq_false_iff, decide_eq_false_iff_not]
  omega

theorem digit_ne_minus {c : Char} (h : isDigitC c = true) : ¬ c = '-' := by
  intro he
  subst he
  simp [isDigitC] at h

theorem digit_ne_plus {c : Char} (h : isDigitC c = true) : ¬ c = '+' := by
  intro he
  subst he
  simp [isDigitC] at h

theorem takeWhile_all_append {A : Type} (p : A → Bool) :
    ∀ (xs : List A) (y : A) (rest : List A), (∀ c ∈ xs, p c = true) → p y = false →
      (xs ++ y :: rest).takeWhile p = xs ∧ (xs ++ y :: rest).dropWhile p = y :: rest := by
  intro xs
  induction xs with
  | nil =>
    intro y rest hall hy
    constructor
    · rw [List.nil_append, List.takeWhile_cons, if_neg (by simp [hy])]
    · rw [List.nil_append, List.dropWhile_cons, if_neg (by simp [hy])]
  | cons x xs ih =>
    intro y rest hall hy
    have hx : p x = true := hall x (List.mem_cons_self _ _)
    obtain ⟨ih1, ih2⟩ := ih y rest (fun c hc => hall c (List.mem_cons_of_mem _ hc)) hy
    constructor
    · rw [List.cons_append, List.takeWhile_cons, if_pos (by simp [hx]), ih1]
    · rw [List.cons_append, List.dropWhile_cons, if_pos (by simp [hx]), ih2]

/-- The int extraction of the parser reads back a serialized
non-negative decimal followed by a space. -/
theorem extractInt_serialized (k : Nat) (rest : List Char) :
    extractInt (natChars k ++ ' ' :: rest) = ((k : Int), false, ' ' :: rest) := by
  obtain ⟨hne, hdig⟩ := natChars_props k
  obtain ⟨c, t, hct⟩ : ∃ c t, natChars k = c :: t := by
    rcases hnc : natChars k with _ | ⟨c, t⟩
    · exact absurd hnc hne
    · exact ⟨c, t, rfl⟩
  have hcdig : isDigitC c = true := hdig c (by rw [hct]; exact List.mem_cons_self _ _)
  obtain ⟨htake, hdrop⟩ := takeWhile_all_append isDigitC (natChars k) ' ' rest hdig (by decide)
  unfold extractInt
  rw [hct, List.cons_append, List.dropWhile_cons, if_neg (by simp [digit_not_ws hcdig])]
  show (if c = '-' then extractDigits (-1) (t ++ ' ' :: rest)
        else if c = '+' then extractDigits 1 (t ++ ' ' :: rest)
        else extractDigits 1 (c :: (t ++ ' ' :: rest))) = ((k : Int), false, ' ' :: rest)
  rw [if_neg (digit_ne_minus hcdig), if_neg (digit_ne_plus hcdig),
    ← List.cons_append, ← hct]
  unfold extractDigits
  rw [htake, hdrop, if_neg (fun hh => hne (List.isEmpty_iff.mp hh)),
    digitsVal_natChars, one_mul]

theorem processTok_cons (a : Char) (cs2 : List Char) :
    processTok (a :: cs2) =
      (let (n, failed, rest) := extractInt cs2
       if a ≠ ADD ∧ a ≠ REMOVE ∧ n ≠ -1 then .err
       else
         let content := if failed then [] else rest
         let content2 := if content.head? = some ' ' then content.tail else content
         .push (Move.mk a n (String.mk content2))) := rfl

/-- A leading space is skipped by the int extraction. -/
theorem extractInt_cons_space (L : List Char) : extractInt (' ' :: L) = extractInt L := by
  unfold extractInt
  rw [List.dropWhile_cons, if_pos (by decide)]

/-- Parsing one serialized record of the diff subcommand recovers the
record: the action and position tokens parse back, and exactly the one
separator space is stripped from the content. -/
theorem processChars_serialize (a : Char) (ha : a = ADD ∨ a = REMOVE)
    (n : Int) (hn : 0 ≤ n) (ldata : List Char) :
    processChars (a :: ' ' :: (intChars n ++ ' ' :: ldata)) =
      .push (Move.mk a n (String.mk ldata)) := by
  have haws : isWs a = false := by rcases ha with h | h <;> subst h <;> decide
  have hint : intChars n = natChars n.toNat := by
    unfold intChars
    rw [if_neg (by omega)]
  have hext : extractInt (' ' :: (intChars n ++ ' ' :: ldata)) = (n, false, ' ' :: ldata) := by
    rw [extractInt_cons_space, hint, extractInt_serialized, Int.toNat_of_nonneg hn]
  unfold processChars
  rw [List.dropWhile_cons, if_neg (by simp [haws]), processTok_cons, hext]
  show (if a ≠ ADD ∧ a ≠ REMOVE ∧ n ≠ -1 then LineResult.err
        else .push (Move.mk a n (String.mk ldata))) = .push (Move.mk a n (String.mk ldata))
  rcases ha with h | h <;> subst h <;> rw [if_neg (by simp)]

theorem processLine_serialize (m : Move) (ha : m.action = ADD ∨ m.action = REMOVE)
    (hn : 0 ≤ m.n) : processLine (serializeMove m) = .push m := by
  obtain ⟨a, n, l⟩ := m
  show processLine (String.mk (a :: ' ' :: (intChars n ++ ' ' :: l.data))) = _
  unfold processLine
  have hlen : ¬ ((String.mk (a :: ' ' :: (intChars n ++ ' ' :: l.data))).length = 0) := by
    show ¬ ((a :: ' ' :: (intChars n ++ ' ' :: l.data)).length = 0)
    simp
  rw [if_neg hlen]
  show processChars (a :: ' ' :: (intChars n ++ ' ' :: l.data)) = _
  rw [processChars_serialize a ha n hn l.data]

theorem parsePatchAux_serialize :
    ∀ (ms : List Move) (row : Nat),
      (∀ m ∈ ms, (m.action = ADD ∨ m.action = REMOVE) ∧ 0 ≤ m.n) →
      parsePatchAux (ms.map serializeMove) row = (ms, []) := by
  intro ms
  induction ms with
  | nil => intro row h; rfl
  | cons m ms ih =>
    intro row h
    obtain ⟨ha, hn⟩ := h m (List.mem_cons_self _ _)
    have hline := processLine_serialize m ha hn
    show parsePatchAux (serializeMove m :: ms.map serializeMove) row = _
    unfold parsePatchAux
    rw [ih (row + 1) (fun x hx => h x (List.mem_cons_of_mem _ hx)), hline]

/-- C8.  Deserializing the serialized form of any patch the diff engine
produces yields back exactly the same records (here even in the same
order) and no malformed-record reports. -/
theorem c8_serialize_round_trip (S D : List String) :
    parsePatch (serializePatch (edit_distance S D)) = (edit_distance S D, []) := by
  unfold parsePatch serializePatch
  apply parsePatchAux_serialize
  intro m hm
  obtain ⟨h1, h2, -, -⟩ :=
    btAux_shape S D S.length D.length m (List.mem_reverse.mp hm)
  exact ⟨h1, h2⟩

/-- C8 witness at a concrete patch. -/
theorem c8_serialize_round_trip_witness :
    parsePatch (serializePatch (edit_distance ["a", "b", "c"] ["a", "x", "c"])) =
      (edit_distance ["a", "b", "c"] ["a", "x", "c"], []) :=
  c8_serialize_round_trip ["a", "b", "c"] ["a", "x", "c"]

/-! ## The recognized action symbols -/

/-- C4, amended.  The two action symbols of the external record format
are the characters of ADD and REMOVE, the plus and minus signs: the
diff subcommand only ever emits those two (first conjunct) as the
leading character of a record (second conjunct), and the parser flags a
record malformed exactly when its action char is neither of the two and
additionally its parsed position differs from -1 (third conjunct; the
position test of the source is conjoined, not disjoined, so a bad
position alone is never flagged). -/
theorem c4_amended :
    (∀ S D : List String,
        (edit_distance S D).all (fun m => m.action == ADD || m.action == REMOVE) = true) ∧
    (∀ m : Move,
        (serializeMove m).data = m.action :: ' ' :: (intChars m.n ++ ' ' :: m.line.data)) ∧
    (∀ (line : String) (a : Char) (cs : List Char),
        line.data.dropWhile isWs = a :: cs →
        (processLine line = .err ↔ a ≠ ADD ∧ a ≠ REMOVE ∧ (extractInt cs).1 ≠ -1)) := by
  refine ⟨?_, ?_, ?_⟩
  · intro S D
    rw [List.all_eq_true]
    intro m hm
    obtain ⟨h1, -, -, -⟩ :=
      btAux_shape S D S.length D.length m (List.mem_reverse.mp hm)
    rcases h1 with h | h <;> rw [h] <;> decide
  · intro m
    rfl
  · intro line a cs h
    have hne : line.data ≠ [] := by
      intro h0
      rw [h0] at h
      exact nomatch h
    unfold processLine processChars
    rw [if_neg (show ¬ line.length = 0 from fun h0 => hne (List.length_eq_zero.mp h0)),
      h, processTok_cons]
    rcases hext : extractInt cs with ⟨n2, failed2, rest2⟩
    show (if a ≠ ADD ∧ a ≠ REMOVE ∧ n2 ≠ -1 then LineResult.err else _) = _ ↔ _
    by_cases hc : a ≠ ADD ∧ a ≠ REMOVE ∧ n2 ≠ -1
    · rw [if_pos hc]
      simpa using hc
    · rw [if_neg hc]
      constructor
      · intro hpe
        exact absurd hpe (by simp)
      · intro hpe
        exact absurd hpe hc

/-- C4, amended, witness: the record "A 0 x" has an unrecognized action
char and position 0, hence is flagged malformed. -/
theorem c4_amended_witness : processLine "A 0 x" = .err := by
  have h := (c4_amended.2.2 "A 0 x" 'A' [' ', '0', ' ', 'x'] rfl)
  exact h.mpr (by decide)

/-! ## Concrete evaluations settling the executable claims -/

/-! ## Concrete evaluations settling the executable claims -/

/-- C1.  The round-trip property fails on the code: for source
["a", "b"] and destination ["b", "c"] the diff engine emits the patch
delete 0, insert 1; the apply phase sorts, reverses, hence inserts "c"
at index 1 of the still unmodified buffer and only then erases index 0,
producing ["c", "b"] instead of the destination ["b", "c"]. -/
theorem c1_round_trip_violation :
    applyPatch ["a", "b"] (edit_distance ["a", "b"] ["b", "c"]) = .ok ["c", "b"] ∧
    (["c", "b"] : List String) ≠ ["b", "c"] :=
  ⟨rfl, by decide⟩

/-- C2.  A recorded position can be invalid at the moment it is
consumed: diffing the empty source against ["a", "b"] yields inserts at
0 and 1; applied highest first, the insert at 1 indexes past the end of
the empty working vector, which is the out-of-bounds case of
vector insert (undefined behaviour in the source). -/
theorem c2_position_invalid :
    edit_distance [] ["a", "b"] =
      [Move.mk ADD 0 "a", Move.mk ADD 1 "b"] ∧
    applyPatch [] (edit_distance [] ["a", "b"]) = .error .oob :=
  ⟨rfl, rfl⟩

/-- C3.  A record with a recognized action char and a non-integer
position token is not reported: the malformed test requires the action
char to be invalid as well, so the line "+ x hello" is accepted as an
insert at position 0 with empty content and the patch is applied, with
no error and no refusal. -/
theorem c3_malformed_accepted :
    parsePatch ["+ x hello"] = ([Move.mk ADD 0 ""], []) ∧
    patchRun ["s"] ["+ x hello"] = .applied (.ok ["", "s"]) :=
  ⟨rfl, rfl⟩

/-- C10.  The line "x -1 text" has an unrecognized action char but its
position token parses to -1, so the malformed test (which also requires
the position to differ from -1) accepts it; the record reaches the
apply loop, whose final branch is the assert(false) of the source. -/
theorem c10_assert_reachable :
    parsePatch ["x -1 text"] = ([Move.mk 'x' (-1) "text"], []) ∧
    patchRun [] ["x -1 text"] = .applied (.error .badAction) :=
  ⟨rfl, rfl⟩

/-- C4, counterexample.  The action symbol A is not recognized: a record
"A 0 x" is flagged malformed (reported at line 1 and nothing pushed),
and the diff subcommand emits the character of REMOVE, which is the
minus sign, not R. -/
theorem c4_counterexample :
    parsePatch ["A 0 x"] = ([], [1]) ∧
    edit_distance ["a"] [] = [Move.mk REMOVE 0 "a"] :=
  ⟨rfl, rfl⟩

/-- C9, counterexample.  The emitted patch is not ascending in position:
diffing ["x", "y", "z", "a"] against ["a", "p"] yields deletes at 0, 1,
2 followed by an insert at 1, so a consecutive pair with a strictly
decreasing position exists. -/
theorem c9_counterexample :
    ¬ List.Chain' (fun a b : Move => a.n ≤ b.n)
        (edit_distance ["x", "y", "z", "a"] ["a", "p"]) := by
  rw [show edit_distance ["x", "y", "z", "a"] ["a", "p"] =
      [Move.mk REMOVE 0 "x", Move.mk REMOVE 1 "y",
       Move.mk REMOVE 2 "z", Move.mk ADD 1 "p"] from rfl]
  simp [List.chain'_cons]

end Cdiff
